import Mathlib

/-!
Shallow embedding of the causal replicated text buffer from
src/editor/src/crdt.rs, together with theorems settling the claims about
it.  Machine integers (u16 replica ids, u32 sequence counters) are
modelled as Nat: no operation of the embedded fragment can overflow them
in any scenario the claims quantify over, and the spec's invariant of
strictly increasing sequence numbers presumes no wrap-around.
-/

namespace CrdtSpec

/-- Identifier of an operation / node: pair of replica id and sequence
value (crdt.rs, struct Id). -/
structure Id where
  replica_id : Nat
  value : Nat
deriving DecidableEq

/-- The Ord instance on Id from crdt.rs: compare by sequence value,
tie-broken by replica id (both ascending).  This is the strict
less-than test used by insert_node. -/
def Id.ltb (a b : Id) : Bool :=
  a.value < b.value || (a.value == b.value && a.replica_id < b.replica_id)

/-- Version vector (crdt.rs, struct Global).  The HashMap<u16, u32> is
modelled as an association list; the code only ever reads it through
entry(..).or_insert(0), so absent keys behave as 0. -/
structure Global where
  state : List (Nat × Nat)
deriving DecidableEq

/-- Global::new. -/
def Global.new : Global := ⟨[]⟩

/-- The entry(id.replica_id).or_insert(0) followed by the conditional
bump from Global::update, on the association-list model. -/
def updateEntry (id : Id) : List (Nat × Nat) → List (Nat × Nat)
  | [] => [(id.replica_id, id.value)]
  | (k, v) :: rest =>
    if k = id.replica_id then
      (k, if v < id.value then id.value else v) :: rest
    else
      (k, v) :: updateEntry id rest

/-- Global::update: state[id.replica_id] = max(state[id.replica_id], id.value). -/
def Global.update (g : Global) (id : Id) : Global :=
  ⟨updateEntry id g.state⟩

/-- Lookup in the association list, defaulting an absent key to 0 (the
or_insert(0) default of the HashMap in crdt.rs). -/
def lookupState (s : List (Nat × Nat)) (k : Nat) : Nat :=
  match s with
  | [] => 0
  | (k', v) :: rest => if k' = k then v else lookupState rest k

/-- Read state[k] of a version vector, absent keys reading as 0. -/
def Global.getD (g : Global) (k : Nat) : Nat := lookupState g.state k

/-- Operation exchanged between replicas (crdt.rs, struct Op). -/
structure Op where
  id : Id
  relative_id : Option Id
  text : Option Char
  version : Global
  is_delete : Bool
deriving DecidableEq

/-- One character of the document (crdt.rs, struct Node). -/
structure Node where
  insertion_id : Id
  relative_to_id : Option Id
  text : Char
  visible : Bool
deriving DecidableEq

/-- The replica-local document state (crdt.rs, struct Buffer). -/
structure Buffer where
  replica_id : Nat
  sequence : Nat
  nodes : List Node
  version : Global
  holdback_queue : List Op
deriving DecidableEq

/-- Buffer::new. -/
def Buffer.new (replica_id : Nat) : Buffer :=
  ⟨replica_id, 0, [], Global.new, []⟩

/-- The characters of the visible nodes, in list order. -/
def renderNodes (nodes : List Node) : List Char :=
  (nodes.filter (fun n => n.visible)).map (fun n => n.text)

/-- Buffer::render: concatenate the text of visible nodes. -/
def Buffer.render (b : Buffer) : String :=
  ⟨renderNodes b.nodes⟩

/-- Buffer::find_index: position of the first node with the given
insertion id. -/
def find_index (id : Id) : List Node → Option Nat
  | [] => none
  | n :: rest =>
    if n.insertion_id = id then some 0
    else (find_index id rest).map (fun i => i + 1)

/-- The scanning loop of Buffer::find_visible_insertion_point, carrying
the running count of visible nodes seen so far. -/
def findVisibleFrom (visible_pos : Nat) : List Node → Nat → Option Id
  | [], _ => none
  | n :: rest, count =>
    if n.visible then
      if count + 1 = visible_pos then some n.insertion_id
      else findVisibleFrom visible_pos rest (count + 1)
    else findVisibleFrom visible_pos rest count

/-- Buffer::find_visible_insertion_point: resolve a visible position to
the id of the node it is anchored after (none for position 0, and none
when the position exceeds the number of visible nodes). -/
def find_visible_insertion_point (nodes : List Node) (visible_pos : Nat) : Option Id :=
  if visible_pos = 0 then none
  else findVisibleFrom visible_pos nodes 0

/-- The sibling-skipping while loop of Buffer::insert_node: starting at
the insertion point, count the contiguous nodes that share the new
node's anchor and have a smaller insertion id. -/
def skipSiblings (node : Node) : List Node → Nat
  | [] => 0
  | curr :: rest =>
    if curr.relative_to_id = node.relative_to_id ∧ Id.ltb curr.insertion_id node.insertion_id = true then
      skipSiblings node rest + 1
    else 0

/-- The starting index computed by Buffer::insert_node: just after the
anchor node when it is found, the start of the list for a none anchor,
and the end of the list when the anchor is absent (the "append to end
(simplified)" branch). -/
def insertionStart (b : Buffer) (node : Node) : Nat :=
  match node.relative_to_id with
  | none => 0
  | some rel =>
    match find_index rel b.nodes with
    | some idx => idx + 1
    | none => b.nodes.length

/-- The index at which Buffer::insert_node finally inserts. -/
def insertionIndex (b : Buffer) (node : Node) : Nat :=
  insertionStart b node + skipSiblings node (b.nodes.drop (insertionStart b node))

/-- Buffer::insert_node. -/
def Buffer.insert_node (b : Buffer) (node : Node) : Buffer :=
  { b with nodes := b.nodes.insertIdx (insertionIndex b node) node }

/-- Buffer::apply_local_insert: allocate a fresh id, resolve the anchor,
integrate the node, advance the version vector, return the op. -/
def Buffer.apply_local_insert (b : Buffer) (pos : Nat) (text : Char) : Buffer × Op :=
  let sequence := b.sequence + 1
  let id : Id := ⟨b.replica_id, sequence⟩
  let relative_id := find_visible_insertion_point b.nodes pos
  let node : Node := ⟨id, relative_id, text, true⟩
  let b1 := Buffer.insert_node { b with sequence := sequence } node
  let b2 := { b1 with version := b1.version.update id }
  (b2, ⟨id, relative_id, some text, b2.version, false⟩)

/-- The scanning loop of Buffer::apply_local_delete: flip the visible
flag of the pos-th visible node (if any) and report its id. -/
def flipVisibleAt : List Node → Nat → List Node × Option Id
  | [], _ => ([], none)
  | n :: rest, pos =>
    if n.visible then
      if pos = 0 then
        ({ n with visible := false } :: rest, some n.insertion_id)
      else
        let r := flipVisibleAt rest (pos - 1)
        (n :: r.1, r.2)
    else
      let r := flipVisibleAt rest pos
      (n :: r.1, r.2)

/-- Buffer::apply_local_delete: tombstone the pos-th visible node (when
in range), then unconditionally allocate a fresh id, advance the version
vector and return the delete op. -/
def Buffer.apply_local_delete (b : Buffer) (pos : Nat) : Buffer × Op :=
  let r := flipVisibleAt b.nodes pos
  let sequence := b.sequence + 1
  let id : Id := ⟨b.replica_id, sequence⟩
  let version := b.version.update id
  ({ b with nodes := r.1, sequence := sequence, version := version },
   ⟨id, r.2, none, version, true⟩)

/-- User intent at the backend boundary.  Modelled from the variants
apply_intent in crdt.rs matches on, together with the MoveCursor variant
of section 6 of the design (which falls into the catch-all arm); the
Rust field named end is called stop here, and text is the list of the
Rust string's chars. -/
inductive Intent where
  | InsertAt (pos : Nat) (text : List Char)
  | DeleteRange (start : Nat) (stop : Nat)
  | ReplaceAll (text : List Char)
  | MoveCursor (pos : Nat)

/-- The per-character loop of the InsertAt and ReplaceAll arms:
apply_local_insert(pos + i, c) for each enumerated character. -/
def insertChars : Buffer → Nat → Nat → List Char → Buffer
  | b, _, _, [] => b
  | b, pos, i, c :: cs =>
      insertChars (b.apply_local_insert (pos + i) c).1 pos (i + 1) cs

/-- The repeated-deletion loops of the DeleteRange and ReplaceAll arms:
apply_local_delete(pos), n times. -/
def deleteN : Buffer → Nat → Nat → Buffer
  | b, _, 0 => b
  | b, pos, n + 1 => deleteN (b.apply_local_delete pos).1 pos n

/-- Update returned to the frontend (full_text plus remote cursor list,
which this backend always leaves empty; the cursor element type is
never constructed, so it is modelled as Nat). -/
structure FrontendUpdate where
  full_text : Option String
  remote_cursors : List Nat
deriving DecidableEq

/-- DocBackend::apply_intent for CrdtBackend, acting on the owned
buffer: InsertAt inserts each character at pos, pos+1, ...; DeleteRange
deletes at index start, end - start times; ReplaceAll deletes every
visible node from position 0 and then inserts the new text; every other
intent is ignored.  Returns the new buffer and the frontend update. -/
def Buffer.apply_intent (b : Buffer) (intent : Intent) : Buffer × FrontendUpdate :=
  let b' :=
    match intent with
    | .InsertAt pos text => insertChars b pos 0 text
    | .DeleteRange start stop => deleteN b start (stop - start)
    | .ReplaceAll text =>
        let len := (b.nodes.filter (fun n => n.visible)).length
        insertChars (deleteN b 0 len) 0 0 text
    | .MoveCursor _ => b
  (b', ⟨some b'.render, []⟩)

/-- Number of visible nodes of a list (the filter/count idiom used by
apply_intent's ReplaceAll arm and by find_visible_insertion_point's
range analysis). -/
def countVisible (l : List Node) : Nat :=
  (l.filter (fun n => n.visible)).length

/-- Integrate a list of nodes one after the other with insert_node. -/
def integrateList (b : Buffer) (l : List Node) : Buffer :=
  l.foldl Buffer.insert_node b

/-- Check that, along an integration order, every node's anchor is
present in the buffer at the moment the node is integrated. -/
def anchorsSatisfiedAlong : Buffer → List Node → Bool
  | _, [] => true
  | b, n :: rest =>
    (match n.relative_to_id with
     | none => true
     | some rel => (find_index rel b.nodes).isSome) &&
    anchorsSatisfiedAlong (b.insert_node n) rest

/-- A single local operation (the two local-edit entry points). -/
inductive LocalOp where
  | ins (pos : Nat) (c : Char)
  | del (pos : Nat)

/-- Run one local operation, keeping the buffer. -/
def applyLocalOp (b : Buffer) : LocalOp → Buffer
  | .ins pos c => (b.apply_local_insert pos c).1
  | .del pos => (b.apply_local_delete pos).1

/-- Run a list of local operations. -/
def applyLocalOps (b : Buffer) (ops : List LocalOp) : Buffer :=
  ops.foldl applyLocalOp b

/-- Run a list of intents through apply_intent, keeping the buffer. -/
def applyIntents (b : Buffer) (l : List Intent) : Buffer :=
  l.foldl (fun b i => (b.apply_intent i).1) b

/-- The identity-carrying fields of a node: everything except the
visible flag. -/
def stripVis (n : Node) : Id × Option Id × Char :=
  (n.insertion_id, n.relative_to_id, n.text)

/-- Every node of the first list survives (up to its visible flag) in
the second. -/
def StripSub (l l' : List Node) : Prop :=
  ∀ n ∈ l, ∃ n2 ∈ l', stripVis n2 = stripVis n

/-- Strict ordering of nodes by their insertion id (the ascending-Id
order of the spec). -/
def NodeLt (a b : Node) : Prop :=
  Id.ltb a.insertion_id b.insertion_id = true

/-! ### Helper lemmas -/

theorem skipSiblings_le (node : Node) : ∀ l : List Node, skipSiblings node l ≤ l.length := by
  intro l
  induction l with
  | nil => simp [skipSiblings]
  | cons curr rest ih =>
    simp only [skipSiblings, List.length_cons]
    split
    · omega
    · omega

theorem find_index_lt_length (id : Id) :
    ∀ (l : List Node) (i : Nat), find_index id l = some i → i < l.length := by
  intro l
  induction l with
  | nil => intro i h; simp [find_index] at h
  | cons n rest ih =>
    intro i h
    simp only [find_index] at h
    split at h
    · cases h; simp
    · cases hrec : find_index id rest with
      | none => rw [hrec] at h; simp at h
      | some j =>
        rw [hrec] at h
        simp at h
        have := ih j hrec
        simp [← h]
        omega

theorem insertionStart_le (b : Buffer) (node : Node) :
    insertionStart b node ≤ b.nodes.length := by
  unfold insertionStart
  cases node.relative_to_id with
  | none => simp
  | some rel =>
    simp only
    cases h : find_index rel b.nodes with
    | none => simp
    | some idx =>
      simp only
      have := find_index_lt_length rel b.nodes idx h
      omega

theorem insertionIndex_le (b : Buffer) (node : Node) :
    insertionIndex b node ≤ b.nodes.length := by
  unfold insertionIndex
  have h1 := insertionStart_le b node
  have h2 := skipSiblings_le node (b.nodes.drop (insertionStart b node))
  rw [List.length_drop] at h2
  omega

theorem insert_node_nodes (b : Buffer) (node : Node) :
    (b.insert_node node).nodes = b.nodes.insertIdx (insertionIndex b node) node := rfl

theorem insert_node_length (b : Buffer) (node : Node) :
    (b.insert_node node).nodes.length = b.nodes.length + 1 := by
  rw [insert_node_nodes]
  exact List.length_insertIdx _ _ (insertionIndex_le b node)

theorem insertIdx_perm (a : Node) :
    ∀ (k : Nat) (l : List Node), k ≤ l.length → (l.insertIdx k a).Perm (a :: l) := by
  intro k
  induction k with
  | zero => intro l _; rw [List.insertIdx_zero]
  | succ k ih =>
    intro l h
    cases l with
    | nil => simp at h
    | cons x xs =>
      rw [List.insertIdx_succ_cons]
      simp only [List.length_cons] at h
      exact ((ih xs (by omega)).cons x).trans (List.Perm.swap a x xs)

/-! ### C9 -/

/-- Claim C9: totality of local operations.  Every embedded operation is
a total function by construction; the one latent panic site, the
Vec::insert inside insert_node, is safe because the index insert_node
computes never exceeds the current node-sequence length. -/
theorem C9_insert_index_in_bounds (b : Buffer) (node : Node) :
    insertionIndex b node ≤ b.nodes.length :=
  insertionIndex_le b node

/-! ### C2 -/

/-- Claim C2 counterexample: integration is not idempotent.  Re-running
insert_node with a node whose id is already present duplicates the
node, changing both the node sequence and the rendered text. -/
theorem C2_counterexample :
    (((Buffer.new 0).insert_node ⟨⟨0, 1⟩, none, 'a', true⟩).insert_node
        ⟨⟨0, 1⟩, none, 'a', true⟩).nodes ≠
      ((Buffer.new 0).insert_node ⟨⟨0, 1⟩, none, 'a', true⟩).nodes ∧
    (((Buffer.new 0).insert_node ⟨⟨0, 1⟩, none, 'a', true⟩).insert_node
        ⟨⟨0, 1⟩, none, 'a', true⟩).render ≠
      ((Buffer.new 0).insert_node ⟨⟨0, 1⟩, none, 'a', true⟩).render := by
  constructor
  · decide
  · intro h
    have := congrArg String.data h
    simp [Buffer.render] at this
    revert this
    decide

/-- Claim C2 amended: insert_node has no duplicate guard, so it is not
idempotent — every call grows the node sequence by exactly one, even
when a node with the same id (indeed, the very same node) is already
present in the sequence. -/
theorem C2_insert_node_always_grows (b : Buffer) (node : Node) :
    (b.insert_node node).nodes.length = b.nodes.length + 1 :=
  insert_node_length b node

/-! ### C3 -/

/-- Claim C3 counterexample: a node whose anchor id is absent from the
buffer is integrated anyway — insert_node on a fresh buffer and a node
anchored to the missing id (1,1) puts the node into the sequence. -/
theorem C3_counterexample :
    find_index ⟨1, 1⟩ (Buffer.new 0).nodes = none ∧
    ((Buffer.new 0).insert_node ⟨⟨2, 5⟩, some ⟨1, 1⟩, 'b', true⟩).nodes =
      [⟨⟨2, 5⟩, some ⟨1, 1⟩, 'b', true⟩] := by
  decide

/-- Claim C3 amended: when a node's anchor id is not found in the
buffer, insert_node does not refuse integration; it appends the node at
the end of the node sequence (the "append to end (simplified)" branch
of the code). -/
theorem C3_missing_anchor_appends (b : Buffer) (node : Node) (rel : Id)
    (h1 : node.relative_to_id = some rel)
    (h2 : find_index rel b.nodes = none) :
    (b.insert_node node).nodes = b.nodes ++ [node] := by
  have hstart : insertionStart b node = b.nodes.length := by
    unfold insertionStart
    rw [h1]
    simp [h2]
  have hidx : insertionIndex b node = b.nodes.length := by
    unfold insertionIndex
    rw [hstart]
    simp [skipSiblings]
  rw [insert_node_nodes, hidx, List.insertIdx_length_self]

/-- Witness for C3's amended theorem at a concrete input. -/
theorem C3_missing_anchor_appends_witness :
    (Node.relative_to_id ⟨⟨2, 5⟩, some ⟨1, 1⟩, 'b', true⟩ = some ⟨1, 1⟩ ∧
      find_index ⟨1, 1⟩ (Buffer.new 0).nodes = none) ∧
    ((Buffer.new 0).insert_node ⟨⟨2, 5⟩, some ⟨1, 1⟩, 'b', true⟩).nodes =
      (Buffer.new 0).nodes ++ [⟨⟨2, 5⟩, some ⟨1, 1⟩, 'b', true⟩] :=
  ⟨⟨by decide, by decide⟩,
    C3_missing_anchor_appends (Buffer.new 0) ⟨⟨2, 5⟩, some ⟨1, 1⟩, 'b', true⟩ ⟨1, 1⟩
      (by decide) (by decide)⟩

/-! ### C4 -/

theorem findVisibleFrom_none (pos : Nat) :
    ∀ (l : List Node) (count : Nat),
      count + countVisible l < pos → findVisibleFrom pos l count = none := by
  intro l
  induction l with
  | nil => intro count _; rfl
  | cons n rest ih =>
    intro count h
    by_cases hv : n.visible
    · have hcv : countVisible (n :: rest) = countVisible rest + 1 := by
        simp [countVisible, hv]
      rw [hcv] at h
      simp only [findVisibleFrom, hv, if_true]
      rw [if_neg (by omega)]
      exact ih (count + 1) (by omega)
    · have hcv : countVisible (n :: rest) = countVisible rest := by
        simp [countVisible, hv]
      rw [hcv] at h
      simp only [findVisibleFrom, hv, if_false]
      exact ih count h

theorem find_visible_insertion_point_none (nodes : List Node) (pos : Nat)
    (h : countVisible nodes < pos) :
    find_visible_insertion_point nodes pos = none := by
  unfold find_visible_insertion_point
  rw [if_neg (by omega)]
  exact findVisibleFrom_none pos nodes 0 (by omega)

/-- Claim C4: out-of-range insert fallback.  When visible_pos exceeds
the number of visible nodes, no anchor is found (the anchor is the
start-of-document None), and apply_local_insert behaves exactly as an
insert at visible position 0 — same op, same resulting buffer. -/
theorem C4_out_of_range_insert (b : Buffer) (pos : Nat) (c : Char)
    (h : countVisible b.nodes < pos) :
    find_visible_insertion_point b.nodes pos = none ∧
    b.apply_local_insert pos c = b.apply_local_insert 0 c := by
  have hnone := find_visible_insertion_point_none b.nodes pos h
  refine ⟨hnone, ?_⟩
  unfold Buffer.apply_local_insert
  rw [hnone]
  rfl

/-- Witness for C4 at a concrete input: the buffer holding just "a"
(one visible node) with insert position 5. -/
theorem C4_out_of_range_insert_witness :
    countVisible ((Buffer.new 1).insert_node ⟨⟨1, 1⟩, none, 'a', true⟩).nodes < 5 ∧
    (find_visible_insertion_point
        ((Buffer.new 1).insert_node ⟨⟨1, 1⟩, none, 'a', true⟩).nodes 5 = none ∧
      ((Buffer.new 1).insert_node ⟨⟨1, 1⟩, none, 'a', true⟩).apply_local_insert 5 'z' =
        ((Buffer.new 1).insert_node ⟨⟨1, 1⟩, none, 'a', true⟩).apply_local_insert 0 'z') :=
  ⟨by decide,
    C4_out_of_range_insert ((Buffer.new 1).insert_node ⟨⟨1, 1⟩, none, 'a', true⟩) 5 'z'
      (by decide)⟩

/-! ### C5 -/

theorem flipVisibleAt_out_of_range :
    ∀ (l : List Node) (pos : Nat), countVisible l ≤ pos → flipVisibleAt l pos = (l, none) := by
  intro l
  induction l with
  | nil => intro pos _; rfl
  | cons n rest ih =>
    intro pos h
    by_cases hv : n.visible
    · have hcv : countVisible (n :: rest) = countVisible rest + 1 := by
        simp [countVisible, hv]
      rw [hcv] at h
      simp only [flipVisibleAt, hv, if_true]
      rw [if_neg (by omega), ih (pos - 1) (by omega)]
    · have hcv : countVisible (n :: rest) = countVisible rest := by
        simp [countVisible, hv]
      rw [hcv] at h
      simp [flipVisibleAt, hv, ih pos h]

/-- Claim C5: out-of-range delete.  When visible_pos is at least the
number of visible nodes, apply_local_delete flips no node (node
sequence and rendered text unchanged), yet still increments the
sequence counter, still folds the freshly allocated id into the version
vector, and returns a delete op with anchor None. -/
theorem C5_out_of_range_delete (b : Buffer) (pos : Nat)
    (h : countVisible b.nodes ≤ pos) :
    (b.apply_local_delete pos).1.nodes = b.nodes ∧
    (b.apply_local_delete pos).1.render = b.render ∧
    (b.apply_local_delete pos).1.sequence = b.sequence + 1 ∧
    (b.apply_local_delete pos).1.version =
      b.version.update ⟨b.replica_id, b.sequence + 1⟩ ∧
    (b.apply_local_delete pos).2.relative_id = none ∧
    (b.apply_local_delete pos).2.is_delete = true := by
  have hflip := flipVisibleAt_out_of_range b.nodes pos h
  unfold Buffer.apply_local_delete
  rw [hflip]
  exact ⟨rfl, rfl, rfl, rfl, rfl, rfl⟩

/-- Witness for C5 at a concrete input: deleting position 7 of the
buffer holding just "a". -/
theorem C5_out_of_range_delete_witness :
    countVisible ((Buffer.new 1).insert_node ⟨⟨1, 1⟩, none, 'a', true⟩).nodes ≤ 7 ∧
    (((Buffer.new 1).insert_node ⟨⟨1, 1⟩, none, 'a', true⟩).apply_local_delete 7).1.nodes =
      ((Buffer.new 1).insert_node ⟨⟨1, 1⟩, none, 'a', true⟩).nodes :=
  ⟨by decide,
    (C5_out_of_range_delete ((Buffer.new 1).insert_node ⟨⟨1, 1⟩, none, 'a', true⟩) 7
      (by decide)).1⟩

/-! ### C10 -/

theorem insert_node_holdback (b : Buffer) (node : Node) :
    (b.insert_node node).holdback_queue = b.holdback_queue := rfl

theorem apply_local_insert_holdback (b : Buffer) (pos : Nat) (c : Char) :
    (b.apply_local_insert pos c).1.holdback_queue = b.holdback_queue := rfl

theorem apply_local_delete_holdback (b : Buffer) (pos : Nat) :
    (b.apply_local_delete pos).1.holdback_queue = b.holdback_queue := rfl

theorem insertChars_holdback :
    ∀ (cs : List Char) (b : Buffer) (pos i : Nat),
      (insertChars b pos i cs).holdback_queue = b.holdback_queue := by
  intro cs
  induction cs with
  | nil => intro b pos i; rfl
  | cons c rest ih =>
    intro b pos i
    rw [insertChars, ih, apply_local_insert_holdback]

theorem deleteN_holdback :
    ∀ (n : Nat) (b : Buffer) (pos : Nat),
      (deleteN b pos n).holdback_queue = b.holdback_queue := by
  intro n
  induction n with
  | zero => intro b pos; rfl
  | succ n ih =>
    intro b pos
    rw [deleteN, ih, apply_local_delete_holdback]

theorem apply_intent_holdback (b : Buffer) (intent : Intent) :
    (b.apply_intent intent).1.holdback_queue = b.holdback_queue := by
  cases intent with
  | InsertAt pos text => exact insertChars_holdback text b pos 0
  | DeleteRange start stop => exact deleteN_holdback (stop - start) b start
  | ReplaceAll text =>
    show (insertChars (deleteN b 0 _) 0 0 text).holdback_queue = b.holdback_queue
    rw [insertChars_holdback, deleteN_holdback]
  | MoveCursor pos => rfl

theorem applyIntents_holdback :
    ∀ (l : List Intent) (b : Buffer),
      (applyIntents b l).holdback_queue = b.holdback_queue := by
  intro l
  induction l with
  | nil => intro b; rfl
  | cons i rest ih =>
    intro b
    show (applyIntents (b.apply_intent i).1 rest).holdback_queue = b.holdback_queue
    rw [ih, apply_intent_holdback]

/-- Claim C10: the holdback queue is never populated.  A fresh buffer's
holdback queue is empty, every operation of the implementation leaves
it unchanged, and hence after any sequence of intents the pending
operation count is 0. -/
theorem C10_holdback_never_populated :
    (∀ r, (Buffer.new r).holdback_queue = []) ∧
    (∀ (b : Buffer) (node : Node),
      (b.insert_node node).holdback_queue = b.holdback_queue) ∧
    (∀ (b : Buffer) (pos : Nat) (c : Char),
      (b.apply_local_insert pos c).1.holdback_queue = b.holdback_queue) ∧
    (∀ (b : Buffer) (pos : Nat),
      (b.apply_local_delete pos).1.holdback_queue = b.holdback_queue) ∧
    (∀ (b : Buffer) (intent : Intent),
      (b.apply_intent intent).1.holdback_queue = b.holdback_queue) ∧
    (∀ (r : Nat) (l : List Intent),
      (applyIntents (Buffer.new r) l).holdback_queue.length = 0) :=
  ⟨fun _ => rfl,
    insert_node_holdback,
    apply_local_insert_holdback,
    apply_local_delete_holdback,
    apply_intent_holdback,
    fun r l => by rw [applyIntents_holdback]; rfl⟩

/-! ### C6 -/

theorem lookupState_cons (a v : Nat) (rest : List (Nat × Nat)) (q : Nat) :
    lookupState ((a, v) :: rest) q = if a = q then v else lookupState rest q := rfl

theorem updateEntry_cons (id : Id) (a v : Nat) (rest : List (Nat × Nat)) :
    updateEntry id ((a, v) :: rest) =
      if a = id.replica_id then
        (a, if v < id.value then id.value else v) :: rest
      else
        (a, v) :: updateEntry id rest := rfl

theorem lookupState_updateEntry_self (id : Id) :
    ∀ s : List (Nat × Nat),
      lookupState (updateEntry id s) id.replica_id =
        max (lookupState s id.replica_id) id.value := by
  intro s
  induction s with
  | nil =>
    show (if id.replica_id = id.replica_id then id.value else 0) = max 0 id.value
    rw [if_pos rfl]
    omega
  | cons kv rest ih =>
    obtain ⟨a, v⟩ := kv
    by_cases hk : a = id.replica_id
    · subst hk
      rw [updateEntry_cons, if_pos rfl, lookupState_cons, if_pos rfl,
        lookupState_cons, if_pos rfl]
      split <;> omega
    · rw [updateEntry_cons, if_neg hk, lookupState_cons, if_neg hk,
        lookupState_cons, if_neg hk]
      exact ih

theorem lookupState_updateEntry_mono (id : Id) :
    ∀ (s : List (Nat × Nat)) (q : Nat),
      lookupState s q ≤ lookupState (updateEntry id s) q := by
  intro s
  induction s with
  | nil => intro q; exact Nat.zero_le _
  | cons kv rest ih =>
    obtain ⟨a, v⟩ := kv
    intro q
    by_cases hk : a = id.replica_id
    · rw [updateEntry_cons, if_pos hk, lookupState_cons, lookupState_cons]
      by_cases hq : a = q
      · rw [if_pos hq, if_pos hq]
        split <;> omega
      · rw [if_neg hq, if_neg hq]
    · rw [updateEntry_cons, if_neg hk, lookupState_cons, lookupState_cons]
      by_cases hq : a = q
      · rw [if_pos hq, if_pos hq]
      · rw [if_neg hq, if_neg hq]
        exact ih q

theorem Global_update_getD_self (g : Global) (id : Id) :
    (g.update id).getD id.replica_id = max (g.getD id.replica_id) id.value :=
  lookupState_updateEntry_self id g.state

theorem Global_update_getD_mono (g : Global) (id : Id) (k : Nat) :
    g.getD k ≤ (g.update id).getD k :=
  lookupState_updateEntry_mono id g.state k

theorem applyLocalOp_replica (b : Buffer) (op : LocalOp) :
    (applyLocalOp b op).replica_id = b.replica_id := by
  cases op <;> rfl

theorem applyLocalOp_sequence (b : Buffer) (op : LocalOp) :
    (applyLocalOp b op).sequence = b.sequence + 1 := by
  cases op <;> rfl

theorem applyLocalOp_version (b : Buffer) (op : LocalOp) :
    (applyLocalOp b op).version =
      b.version.update ⟨b.replica_id, b.sequence + 1⟩ := by
  cases op <;> rfl

theorem applyLocalOps_count :
    ∀ (ops : List LocalOp) (b : Buffer),
      b.version.getD b.replica_id = b.sequence →
      (applyLocalOps b ops).replica_id = b.replica_id ∧
      (applyLocalOps b ops).sequence = b.sequence + ops.length ∧
      (applyLocalOps b ops).version.getD b.replica_id = b.sequence + ops.length := by
  intro ops
  induction ops with
  | nil => intro b h; exact ⟨rfl, rfl, h⟩
  | cons op rest ih =>
    intro b h
    have hstep : applyLocalOps b (op :: rest) = applyLocalOps (applyLocalOp b op) rest := rfl
    have hb' : (applyLocalOp b op).version.getD (applyLocalOp b op).replica_id =
        (applyLocalOp b op).sequence := by
      rw [applyLocalOp_version, applyLocalOp_replica, applyLocalOp_sequence]
      have hmax := Global_update_getD_self b.version ⟨b.replica_id, b.sequence + 1⟩
      simp only at hmax
      rw [hmax, h]
      omega
    obtain ⟨h1, h2, h3⟩ := ih (applyLocalOp b op) hb'
    rw [applyLocalOp_replica] at h1 h3
    rw [applyLocalOp_sequence] at h2 h3
    refine ⟨by rw [hstep, h1], ?_, ?_⟩
    · rw [hstep, h2]
      simp
      omega
    · rw [hstep, h3]
      simp
      omega

/-- Claim C6: version-vector counting and monotonicity.  After any n
local operations on a fresh buffer with replica id r, the version
vector's entry for r equals n; Global.update folds an id in by taking
the maximum of the current entry and the id's sequence value; and every
entry is monotonically non-decreasing under update. -/
theorem C6_version_vector :
    (∀ (r : Nat) (ops : List LocalOp),
      (applyLocalOps (Buffer.new r) ops).version.getD r = ops.length) ∧
    (∀ (g : Global) (id : Id),
      (g.update id).getD id.replica_id = max (g.getD id.replica_id) id.value) ∧
    (∀ (g : Global) (id : Id) (k : Nat), g.getD k ≤ (g.update id).getD k) := by
  refine ⟨?_, Global_update_getD_self, Global_update_getD_mono⟩
  intro r ops
  have h := (applyLocalOps_count ops (Buffer.new r) rfl).2.2
  simpa [Buffer.new] using h

/-! ### C7 -/

theorem renderNodes_flipVisibleAt :
    ∀ (l : List Node) (pos : Nat),
      renderNodes (flipVisibleAt l pos).1 = (renderNodes l).eraseIdx pos := by
  intro l
  induction l with
  | nil => intro pos; cases pos <;> rfl
  | cons n rest ih =>
    intro pos
    by_cases hv : n.visible
    · cases pos with
      | zero =>
        simp [flipVisibleAt, hv, renderNodes, List.filter_cons]
      | succ p =>
        simp only [flipVisibleAt, hv, if_true, List.eraseIdx]
        simp [renderNodes, List.filter_cons, hv]
        simpa [renderNodes] using ih p
    · simp only [flipVisibleAt, hv]
      simp [renderNodes, List.filter_cons, hv]
      simpa [renderNodes] using ih pos

theorem apply_local_delete_renderNodes (b : Buffer) (pos : Nat) :
    renderNodes (b.apply_local_delete pos).1.nodes = (renderNodes b.nodes).eraseIdx pos :=
  renderNodes_flipVisibleAt b.nodes pos

/-- Claim C7: DeleteRange semantics.  The DeleteRange arm is exactly
end - start repetitions of apply_local_delete(start), and on any buffer
rendering "abcd" the intent DeleteRange 1 3 renders "ad". -/
theorem C7_delete_range (b : Buffer) (h : b.render = "abcd") :
    (∀ start stop : Nat,
      (b.apply_intent (.DeleteRange start stop)).1 = deleteN b start (stop - start)) ∧
    (b.apply_intent (.DeleteRange 1 3)).1.render = "ad" := by
  refine ⟨fun start stop => rfl, ?_⟩
  have hdata : renderNodes b.nodes = ['a', 'b', 'c', 'd'] := congrArg String.data h
  show Buffer.render (deleteN b 1 (3 - 1)) = "ad"
  have h2 : renderNodes (deleteN b 1 (3 - 1)).nodes =
      ((renderNodes b.nodes).eraseIdx 1).eraseIdx 1 := by
    rw [show deleteN b 1 (3 - 1) = ((b.apply_local_delete 1).1.apply_local_delete 1).1 from rfl,
      apply_local_delete_renderNodes, apply_local_delete_renderNodes]
  show (⟨renderNodes (deleteN b 1 (3 - 1)).nodes⟩ : String) = "ad"
  rw [h2, hdata]
  rfl

/-- Witness for C7: a concrete buffer rendering "abcd", built by typing
the four characters into a fresh buffer. -/
theorem C7_delete_range_witness :
    (((Buffer.new 1).apply_intent (.InsertAt 0 "abcd".toList)).1).render = "abcd" ∧
    ((((Buffer.new 1).apply_intent (.InsertAt 0 "abcd".toList)).1).apply_intent
        (.DeleteRange 1 3)).1.render = "ad" :=
  ⟨by decide,
    (C7_delete_range ((Buffer.new 1).apply_intent (.InsertAt 0 "abcd".toList)).1
      (by decide)).2⟩

/-! ### C8 -/

theorem StripSub.refl (l : List Node) : StripSub l l :=
  fun n hn => ⟨n, hn, rfl⟩

theorem StripSub.trans {l1 l2 l3 : List Node}
    (h1 : StripSub l1 l2) (h2 : StripSub l2 l3) : StripSub l1 l3 := by
  intro n hn
  obtain ⟨m, hm, hsm⟩ := h1 n hn
  obtain ⟨p, hp, hsp⟩ := h2 m hm
  exact ⟨p, hp, by rw [hsp, hsm]⟩

theorem StripSub.of_map_eq {l l' : List Node}
    (h : l'.map stripVis = l.map stripVis) : StripSub l l' := by
  intro n hn
  have : stripVis n ∈ l'.map stripVis := by
    rw [h]
    exact List.mem_map_of_mem _ hn
  obtain ⟨n2, hn2, hs⟩ := List.mem_map.mp this
  exact ⟨n2, hn2, hs⟩

theorem flipVisibleAt_map_strip :
    ∀ (l : List Node) (pos : Nat),
      (flipVisibleAt l pos).1.map stripVis = l.map stripVis := by
  intro l
  induction l with
  | nil => intro pos; rfl
  | cons n rest ih =>
    intro pos
    by_cases hv : n.visible
    · cases pos with
      | zero => simp [flipVisibleAt, hv, stripVis]
      | succ p => simp [flipVisibleAt, hv, ih p]
    · simp [flipVisibleAt, hv, ih pos]

theorem apply_local_delete_map_strip (b : Buffer) (pos : Nat) :
    (b.apply_local_delete pos).1.nodes.map stripVis = b.nodes.map stripVis :=
  flipVisibleAt_map_strip b.nodes pos

theorem deleteN_map_strip :
    ∀ (k : Nat) (b : Buffer) (pos : Nat),
      (deleteN b pos k).nodes.map stripVis = b.nodes.map stripVis := by
  intro k
  induction k with
  | zero => intro b pos; rfl
  | succ k ih =>
    intro b pos
    show (deleteN (b.apply_local_delete pos).1 pos k).nodes.map stripVis = _
    rw [ih, apply_local_delete_map_strip]

theorem countVisible_flipVisibleAt :
    ∀ (l : List Node) (pos : Nat), pos < countVisible l →
      countVisible (flipVisibleAt l pos).1 = countVisible l - 1 := by
  intro l
  induction l with
  | nil => intro pos h; simp [countVisible] at h
  | cons n rest ih =>
    intro pos h
    by_cases hv : n.visible
    · have hcv : countVisible (n :: rest) = countVisible rest + 1 := by
        simp [countVisible, List.filter_cons, hv]
      cases pos with
      | zero =>
        have h1 : countVisible (flipVisibleAt (n :: rest) 0).1 = countVisible rest := by
          simp [flipVisibleAt, hv, countVisible, List.filter_cons]
        rw [h1, hcv]
        omega
      | succ p =>
        rw [hcv] at h
        have hp : p < countVisible rest := by omega
        have h1 : countVisible (flipVisibleAt (n :: rest) (p + 1)).1 =
            countVisible (flipVisibleAt rest p).1 + 1 := by
          simp [flipVisibleAt, hv, countVisible, List.filter_cons]
        rw [h1, ih p hp, hcv]
        omega
    · have hcv : countVisible (n :: rest) = countVisible rest := by
        simp [countVisible, List.filter_cons, hv]
      rw [hcv] at h
      have h1 : countVisible (flipVisibleAt (n :: rest) pos).1 =
          countVisible (flipVisibleAt rest pos).1 := by
        simp [flipVisibleAt, hv, countVisible, List.filter_cons]
      rw [h1, ih pos h, hcv]

theorem countVisible_deleteN_zero :
    ∀ (k : Nat) (b : Buffer), countVisible b.nodes ≤ k →
      countVisible (deleteN b 0 k).nodes = 0 := by
  intro k
  induction k with
  | zero =>
    intro b h
    have hd : deleteN b 0 0 = b := rfl
    rw [hd]
    omega
  | succ k ih =>
    intro b h
    show countVisible (deleteN (b.apply_local_delete 0).1 0 k).nodes = 0
    by_cases hz : countVisible b.nodes = 0
    · apply ih
      have : (b.apply_local_delete 0).1.nodes = b.nodes := by
        show (flipVisibleAt b.nodes 0).1 = b.nodes
        rw [flipVisibleAt_out_of_range b.nodes 0 (by omega)]
      rw [this]
      omega
    · apply ih
      have : countVisible (b.apply_local_delete 0).1.nodes = countVisible b.nodes - 1 :=
        countVisible_flipVisibleAt b.nodes 0 (by omega)
      omega

theorem countVisible_eq_zero_all_invisible :
    ∀ l : List Node, countVisible l = 0 → ∀ n ∈ l, n.visible = false := by
  intro l
  induction l with
  | nil => intro _ n hn; simp at hn
  | cons m rest ih =>
    intro h n hn
    by_cases hv : m.visible
    · simp [countVisible, List.filter_cons, hv] at h
    · have hcv : countVisible rest = 0 := by
        simpa [countVisible, List.filter_cons, hv] using h
      rcases List.mem_cons.mp hn with hn' | hn'
      · rw [hn']
        simpa using hv
      · exact ih hcv n hn'

theorem countVisible_eq_render_length (l : List Node) :
    countVisible l = (renderNodes l).length := by
  simp [countVisible, renderNodes]

theorem renderNodes_insert_into_invisible (b : Buffer) (node : Node)
    (hcv : countVisible b.nodes = 0) (hvis : node.visible = true) :
    renderNodes (b.insert_node node).nodes = [node.text] := by
  have hperm := insertIdx_perm node (insertionIndex b node) b.nodes (insertionIndex_le b node)
  have hnil : b.nodes.filter (fun n => n.visible) = [] :=
    List.eq_nil_of_length_eq_zero hcv
  have hfil := hperm.filter (fun n => n.visible)
  rw [List.filter_cons, if_pos (by simp [hvis]), hnil] at hfil
  have := List.perm_singleton.mp hfil
  rw [insert_node_nodes] at *
  show ((b.nodes.insertIdx (insertionIndex b node) node).filter
      (fun n => n.visible)).map (fun n => n.text) = [node.text]
  rw [this]
  rfl

theorem render_apply_local_insert_invisible (b : Buffer) (pos : Nat) (c : Char)
    (hcv : countVisible b.nodes = 0) :
    renderNodes (b.apply_local_insert pos c).1.nodes = [c] := by
  exact renderNodes_insert_into_invisible
    { b with sequence := b.sequence + 1 }
    ⟨⟨b.replica_id, b.sequence + 1⟩, find_visible_insertion_point b.nodes pos, c, true⟩
    hcv rfl

theorem mem_insert_node (b : Buffer) (node : Node) {n : Node} (hn : n ∈ b.nodes) :
    n ∈ (b.insert_node node).nodes := by
  rw [insert_node_nodes]
  exact (insertIdx_perm node (insertionIndex b node) b.nodes
    (insertionIndex_le b node)).mem_iff.mpr (List.mem_cons_of_mem node hn)

theorem mem_apply_local_insert (b : Buffer) (pos : Nat) (c : Char) {n : Node}
    (hn : n ∈ b.nodes) : n ∈ (b.apply_local_insert pos c).1.nodes :=
  mem_insert_node { b with sequence := b.sequence + 1 } _ hn

theorem StripSub_insert_node (b : Buffer) (node : Node) :
    StripSub b.nodes (b.insert_node node).nodes :=
  fun n hn => ⟨n, mem_insert_node b node hn, rfl⟩

theorem StripSub_apply_local_insert (b : Buffer) (pos : Nat) (c : Char) :
    StripSub b.nodes (b.apply_local_insert pos c).1.nodes :=
  StripSub_insert_node { b with sequence := b.sequence + 1 } _

theorem StripSub_apply_local_delete (b : Buffer) (pos : Nat) :
    StripSub b.nodes (b.apply_local_delete pos).1.nodes :=
  StripSub.of_map_eq (apply_local_delete_map_strip b pos)

theorem StripSub_insertChars :
    ∀ (cs : List Char) (b : Buffer) (pos i : Nat),
      StripSub b.nodes (insertChars b pos i cs).nodes := by
  intro cs
  induction cs with
  | nil => intro b pos i; exact StripSub.refl _
  | cons c rest ih =>
    intro b pos i
    exact (StripSub_apply_local_insert b (pos + i) c).trans
      (ih (b.apply_local_insert (pos + i) c).1 pos (i + 1))

theorem StripSub_deleteN :
    ∀ (k : Nat) (b : Buffer) (pos : Nat), StripSub b.nodes (deleteN b pos k).nodes := by
  intro k
  induction k with
  | zero => intro b pos; exact StripSub.refl _
  | succ k ih =>
    intro b pos
    exact (StripSub_apply_local_delete b pos).trans (ih (b.apply_local_delete pos).1 pos)

theorem StripSub_apply_intent (b : Buffer) (intent : Intent) :
    StripSub b.nodes (b.apply_intent intent).1.nodes := by
  cases intent with
  | InsertAt pos text => exact StripSub_insertChars text b pos 0
  | DeleteRange start stop => exact StripSub_deleteN (stop - start) b start
  | ReplaceAll text =>
    exact (StripSub_deleteN _ b 0).trans
      (StripSub_insertChars text (deleteN b 0 _) 0 0)
  | MoveCursor pos => exact StripSub.refl _

/-- Claim C8: ReplaceAll and tombstone persistence.  On a buffer
rendering "abc", ReplaceAll "x" renders "x" and every original node is
still present (same id, anchor and character) with visible = false; and
in general no operation ever removes a node from the sequence. -/
theorem C8_replace_all_tombstones (b : Buffer) (_hr : b.render = "abc") :
    (b.apply_intent (.ReplaceAll "x".toList)).1.render = "x" ∧
    (∀ n ∈ b.nodes, ∃ n2 ∈ (b.apply_intent (.ReplaceAll "x".toList)).1.nodes,
      stripVis n2 = stripVis n ∧ n2.visible = false) ∧
    (∀ (b' : Buffer) (intent : Intent), StripSub b'.nodes (b'.apply_intent intent).1.nodes) := by
  have hstep : (b.apply_intent (.ReplaceAll "x".toList)).1 =
      insertChars (deleteN b 0 ((b.nodes.filter (fun n => n.visible)).length)) 0 0 ['x'] := rfl
  have hlen : (b.nodes.filter (fun n => n.visible)).length = countVisible b.nodes := rfl
  have hzero : countVisible (deleteN b 0 (countVisible b.nodes)).nodes = 0 :=
    countVisible_deleteN_zero (countVisible b.nodes) b (Nat.le_refl _)
  refine ⟨?_, ?_, StripSub_apply_intent⟩
  · rw [hstep, hlen]
    have hx : insertChars (deleteN b 0 (countVisible b.nodes)) 0 0 ['x'] =
        ((deleteN b 0 (countVisible b.nodes)).apply_local_insert 0 'x').1 := rfl
    rw [hx]
    show (⟨renderNodes ((deleteN b 0 (countVisible b.nodes)).apply_local_insert 0 'x').1.nodes⟩ :
        String) = "x"
    rw [render_apply_local_insert_invisible _ 0 'x' hzero]
  · intro n hn
    rw [hstep, hlen]
    have hdel := StripSub.of_map_eq
      (deleteN_map_strip (countVisible b.nodes) b 0)
    obtain ⟨n2, hn2, hs2⟩ := hdel n hn
    have hvis2 : n2.visible = false :=
      countVisible_eq_zero_all_invisible _ hzero n2 hn2
    have hx : insertChars (deleteN b 0 (countVisible b.nodes)) 0 0 ['x'] =
        ((deleteN b 0 (countVisible b.nodes)).apply_local_insert 0 'x').1 := rfl
    rw [hx]
    exact ⟨n2, mem_apply_local_insert _ 0 'x' hn2, hs2, hvis2⟩

/-- Witness for C8: the concrete buffer obtained by typing "abc" into a
fresh buffer. -/
theorem C8_replace_all_tombstones_witness :
    (((Buffer.new 1).apply_intent (.InsertAt 0 "abc".toList)).1).render = "abc" ∧
    ((((Buffer.new 1).apply_intent (.InsertAt 0 "abc".toList)).1).apply_intent
        (.ReplaceAll "x".toList)).1.render = "x" :=
  ⟨by decide,
    (C8_replace_all_tombstones ((Buffer.new 1).apply_intent (.InsertAt 0 "abc".toList)).1
      (by decide)).1⟩

/-! ### C1 -/

theorem Id.ltb_iff (a b : Id) :
    Id.ltb a b = true ↔
      (a.value < b.value ∨ (a.value = b.value ∧ a.replica_id < b.replica_id)) := by
  simp [Id.ltb]

theorem Id.ltb_trans {a b c : Id}
    (h1 : Id.ltb a b = true) (h2 : Id.ltb b c = true) : Id.ltb a c = true := by
  rw [Id.ltb_iff] at *
  omega

theorem Id.ltb_asymm {a b : Id}
    (h1 : Id.ltb a b = true) (h2 : Id.ltb b a = true) : False := by
  rw [Id.ltb_iff] at *
  omega

theorem Id.ltb_connex {a b : Id}
    (h1 : Id.ltb a b = false) (h2 : Id.ltb b a = false) : a = b := by
  obtain ⟨ar, av⟩ := a
  obtain ⟨br, bv⟩ := b
  rw [Bool.eq_false_iff, ne_eq, Id.ltb_iff] at h1 h2
  simp only at h1 h2
  have hv : av = bv := by omega
  have hr : ar = br := by omega
  rw [hv, hr]

theorem NodeLt_trans {a b c : Node} (h1 : NodeLt a b) (h2 : NodeLt b c) : NodeLt a c :=
  Id.ltb_trans h1 h2

theorem insert_sorted_core (node : Node) (hnode : node.relative_to_id = none) :
    ∀ l : List Node,
      (∀ n ∈ l, n.relative_to_id = none) →
      l.Pairwise NodeLt →
      node.insertion_id ∉ l.map Node.insertion_id →
      (l.insertIdx (skipSiblings node l) node).Pairwise NodeLt ∧
      (l.insertIdx (skipSiblings node l) node).Perm (node :: l) := by
  intro l
  induction l with
  | nil =>
    intro _ _ _
    exact ⟨List.pairwise_singleton _ _, List.Perm.refl _⟩
  | cons curr rest ih =>
    intro hall hsort hfresh
    have hcurrrel : curr.relative_to_id = none := hall curr (List.mem_cons_self _ _)
    have hfresh' : node.insertion_id ∉ rest.map Node.insertion_id := by
      intro hmem
      exact hfresh (by simp [hmem])
    have hne : node.insertion_id ≠ curr.insertion_id := by
      intro heq
      exact hfresh (by simp [heq])
    by_cases hc : curr.relative_to_id = node.relative_to_id ∧
        Id.ltb curr.insertion_id node.insertion_id = true
    · have hskip : skipSiblings node (curr :: rest) = skipSiblings node rest + 1 := by
        simp [skipSiblings, hc]
      obtain ⟨ihs, ihp⟩ := ih (fun n hn => hall n (List.mem_cons_of_mem _ hn))
        (List.Pairwise.sublist (List.sublist_cons_self curr rest) hsort) hfresh'
      rw [hskip, List.insertIdx_succ_cons]
      constructor
      · apply List.Pairwise.cons
        · intro m hm
          rcases List.mem_cons.mp (ihp.mem_iff.mp hm) with hm' | hm'
          · rw [hm']
            exact hc.2
          · exact (List.pairwise_cons.mp hsort).1 m hm'
        · exact ihs
      · exact (ihp.cons curr).trans (List.Perm.swap node curr rest)
    · have hskip : skipSiblings node (curr :: rest) = 0 := by
        simp [skipSiblings, hc]
      rw [hskip, List.insertIdx_zero]
      have hltb : Id.ltb curr.insertion_id node.insertion_id = false := by
        rcases Bool.eq_false_or_eq_true (Id.ltb curr.insertion_id node.insertion_id) with ht | hf
        · exact absurd ⟨hcurrrel.trans hnode.symm, ht⟩ hc
        · exact hf
      have hnc : NodeLt node curr := by
        rcases Bool.eq_false_or_eq_true (Id.ltb node.insertion_id curr.insertion_id) with ht | hf
        · exact ht
        · exact absurd (Id.ltb_connex hltb hf).symm hne
      constructor
      · apply List.Pairwise.cons
        · intro m hm
          rcases List.mem_cons.mp hm with hm' | hm'
          · rw [hm']
            exact hnc
          · exact NodeLt_trans hnc ((List.pairwise_cons.mp hsort).1 m hm')
        · exact hsort
      · exact List.Perm.refl _

theorem insert_node_none_nodes (b : Buffer) (node : Node)
    (h : node.relative_to_id = none) :
    (b.insert_node node).nodes = b.nodes.insertIdx (skipSiblings node b.nodes) node := by
  rw [insert_node_nodes]
  have hidx : insertionIndex b node = skipSiblings node b.nodes := by
    unfold insertionIndex insertionStart
    rw [h]
    simp
  rw [hidx]

theorem integrateList_invariant :
    ∀ (l : List Node) (b : Buffer),
      (∀ n ∈ b.nodes, n.relative_to_id = none) →
      b.nodes.Pairwise NodeLt →
      (∀ n ∈ l, n.relative_to_id = none) →
      ((b.nodes ++ l).map Node.insertion_id).Nodup →
      (integrateList b l).nodes.Perm (b.nodes ++ l) ∧
      (integrateList b l).nodes.Pairwise NodeLt := by
  intro l
  induction l with
  | nil =>
    intro b h1 h2 _ _
    constructor
    · have hid : integrateList b [] = b := rfl
      rw [hid, List.append_nil]
    · exact h2
  | cons nd rest ih =>
    intro b hban hbs hln hnd
    have hndrel : nd.relative_to_id = none := hln nd (List.mem_cons_self _ _)
    have hmid : (b.nodes ++ nd :: rest).Perm (nd :: (b.nodes ++ rest)) :=
      List.perm_middle
    have hndperm : ((nd :: (b.nodes ++ rest)).map Node.insertion_id).Nodup :=
      ((hmid.map Node.insertion_id).nodup_iff).mp hnd
    have hfresh : nd.insertion_id ∉ b.nodes.map Node.insertion_id := by
      have hcons := hndperm
      rw [List.map_cons] at hcons
      have h1 := (List.nodup_cons.mp hcons).1
      intro hmem
      exact h1 (by rw [List.map_append]; exact List.mem_append_left _ hmem)
    have hcore := insert_sorted_core nd hndrel b.nodes hban hbs hfresh
    have hnodes := insert_node_none_nodes b nd hndrel
    have hperm' : (b.insert_node nd).nodes.Perm (nd :: b.nodes) := by
      rw [hnodes]
      exact hcore.2
    have hsort' : (b.insert_node nd).nodes.Pairwise NodeLt := by
      rw [hnodes]
      exact hcore.1
    have hall' : ∀ n ∈ (b.insert_node nd).nodes, n.relative_to_id = none := by
      intro n hn
      rcases List.mem_cons.mp (hperm'.mem_iff.mp hn) with hn' | hn'
      · rw [hn']
        exact hndrel
      · exact hban n hn'
    have happ : ((b.insert_node nd).nodes ++ rest).Perm (b.nodes ++ nd :: rest) := by
      have h1 : ((b.insert_node nd).nodes ++ rest).Perm ((nd :: b.nodes) ++ rest) :=
        hperm'.append_right rest
      rw [List.cons_append] at h1
      exact h1.trans List.perm_middle.symm
    have hnd' : (((b.insert_node nd).nodes ++ rest).map Node.insertion_id).Nodup :=
      ((happ.map Node.insertion_id).nodup_iff).mpr hnd
    obtain ⟨p1, p2⟩ := ih (b.insert_node nd) hall' hsort'
      (fun n hn => hln n (List.mem_cons_of_mem _ hn)) hnd'
    refine ⟨?_, p2⟩
    show (integrateList (b.insert_node nd) rest).nodes.Perm (b.nodes ++ nd :: rest)
    exact p1.trans happ

/-- Claim C1 counterexample: insert_node is not order-independent even
when every anchor is present at integration time.  With a = (id (1,1),
anchor none), b = (id (1,2), anchor a), c = (id (1,3), anchor none),
the orders [a, b, c] and [a, c, b] both satisfy the anchors-present
condition and are permutations of each other, yet they produce
different node sequences and different rendered strings ("acb" versus
"abc"). -/
theorem C1_counterexample :
    anchorsSatisfiedAlong (Buffer.new 0)
      [⟨⟨1, 1⟩, none, 'a', true⟩, ⟨⟨1, 2⟩, some ⟨1, 1⟩, 'b', true⟩,
        ⟨⟨1, 3⟩, none, 'c', true⟩] = true ∧
    anchorsSatisfiedAlong (Buffer.new 0)
      [⟨⟨1, 1⟩, none, 'a', true⟩, ⟨⟨1, 3⟩, none, 'c', true⟩,
        ⟨⟨1, 2⟩, some ⟨1, 1⟩, 'b', true⟩] = true ∧
    List.Perm
      [⟨⟨1, 1⟩, none, 'a', true⟩, ⟨⟨1, 2⟩, some ⟨1, 1⟩, 'b', true⟩,
        (⟨⟨1, 3⟩, none, 'c', true⟩ : Node)]
      [⟨⟨1, 1⟩, none, 'a', true⟩, ⟨⟨1, 3⟩, none, 'c', true⟩,
        ⟨⟨1, 2⟩, some ⟨1, 1⟩, 'b', true⟩] ∧
    (integrateList (Buffer.new 0)
        [⟨⟨1, 1⟩, none, 'a', true⟩, ⟨⟨1, 2⟩, some ⟨1, 1⟩, 'b', true⟩,
          ⟨⟨1, 3⟩, none, 'c', true⟩]).nodes ≠
      (integrateList (Buffer.new 0)
        [⟨⟨1, 1⟩, none, 'a', true⟩, ⟨⟨1, 3⟩, none, 'c', true⟩,
          ⟨⟨1, 2⟩, some ⟨1, 1⟩, 'b', true⟩]).nodes := by
  refine ⟨by decide, by decide, ?_, by decide⟩
  decide

/-- Claim C1 amended: order determinism holds in the sibling-only case.
When all integrated nodes share the start-of-document anchor (None) and
carry pairwise distinct ids, integrating them into a fresh buffer in
any order yields the same node sequence, kept in ascending Id order.
In general the property fails: see the counterexample, where a node
anchored to a smaller sibling lets a later same-anchor insert land
inside that sibling's subtree in one order but not the other. -/
theorem C1_sibling_order_determinism (r : Nat) (l1 l2 : List Node)
    (hperm : l1.Perm l2)
    (hnone : ∀ n ∈ l1, n.relative_to_id = none)
    (hnodup : (l1.map Node.insertion_id).Nodup) :
    (integrateList (Buffer.new r) l1).nodes = (integrateList (Buffer.new r) l2).nodes ∧
    (integrateList (Buffer.new r) l1).nodes.Pairwise NodeLt := by
  have hnone2 : ∀ n ∈ l2, n.relative_to_id = none :=
    fun n hn => hnone n (hperm.mem_iff.mpr hn)
  have hnodup2 : (l2.map Node.insertion_id).Nodup :=
    ((hperm.map Node.insertion_id).nodup_iff).mp hnodup
  have hb0 : ∀ n ∈ (Buffer.new r).nodes, n.relative_to_id = none := by
    intro n hn
    simp [Buffer.new] at hn
  have hbs : (Buffer.new r).nodes.Pairwise NodeLt := List.Pairwise.nil
  obtain ⟨q1, q2⟩ := integrateList_invariant l1 (Buffer.new r) hb0 hbs hnone
    (by simpa [Buffer.new] using hnodup)
  obtain ⟨q1', q2'⟩ := integrateList_invariant l2 (Buffer.new r) hb0 hbs hnone2
    (by simpa [Buffer.new] using hnodup2)
  have hq : (integrateList (Buffer.new r) l1).nodes.Perm
      (integrateList (Buffer.new r) l2).nodes := by
    refine (q1.trans ?_).trans q1'.symm
    simpa [Buffer.new] using hperm
  haveI : IsAntisymm Node NodeLt :=
    ⟨fun a b h1 h2 => (Id.ltb_asymm h1 h2).elim⟩
  exact ⟨List.eq_of_perm_of_sorted hq q2 q2', q2⟩

/-- Witness for the amended C1 at a concrete input: the two orders of
two sibling nodes anchored at the start of the document. -/
theorem C1_sibling_order_determinism_witness :
    (List.Perm [⟨⟨2, 1⟩, none, 'u', true⟩, (⟨⟨1, 1⟩, none, 'v', true⟩ : Node)]
        [⟨⟨1, 1⟩, none, 'v', true⟩, ⟨⟨2, 1⟩, none, 'u', true⟩] ∧
      (∀ n ∈ [⟨⟨2, 1⟩, none, 'u', true⟩, (⟨⟨1, 1⟩, none, 'v', true⟩ : Node)],
        n.relative_to_id = none) ∧
      (([⟨⟨2, 1⟩, none, 'u', true⟩,
          (⟨⟨1, 1⟩, none, 'v', true⟩ : Node)].map Node.insertion_id)).Nodup) ∧
    (integrateList (Buffer.new 0)
        [⟨⟨2, 1⟩, none, 'u', true⟩, ⟨⟨1, 1⟩, none, 'v', true⟩]).nodes =
      (integrateList (Buffer.new 0)
        [⟨⟨1, 1⟩, none, 'v', true⟩, ⟨⟨2, 1⟩, none, 'u', true⟩]).nodes :=
  ⟨⟨by decide, by decide, by decide⟩,
    (C1_sibling_order_determinism 0
      [⟨⟨2, 1⟩, none, 'u', true⟩, ⟨⟨1, 1⟩, none, 'v', true⟩]
      [⟨⟨1, 1⟩, none, 'v', true⟩, ⟨⟨2, 1⟩, none, 'u', true⟩]
      (by decide) (by decide) (by decide)).1⟩

end CrdtSpec
